import Mathlib

/-!
Verification of the TuneTracker audio-fingerprinting pipeline.

The definitions below are a shallow embedding of the repository's Python
sources: `audio_processing.py` (peak extraction and landmark hashing),
`database.py` (fingerprint store, chunked lookup, match ranking),
`workers.py` (query worker with cooperative cancellation, batch ingest
worker) and `RecordSkelly.py` (CLI batch ingest and comparison mode).
Machine integers are modelled as `Nat` with explicit reduction modulo
`2 ^ 64` where the hash algorithm overflows; spectrogram magnitudes are
modelled as rationals; SQLite tables are modelled as lists of rows in
insertion (rowid) order.
-/

/-! ## XXH64, as used by `xxhash.xxh64` in `audio_processing.py`

A faithful implementation of the XXH64 algorithm over a byte list, with
all 64-bit arithmetic carried out on `Nat` modulo `2 ^ 64`.  Validated
against the published test vectors (empty input `ef46db3751d8e999`,
"a" `d24ec4f1a98c6e5b`, "abc" `44bc2cf5ad770999`, and the 222-byte
xxhsum sanity buffer `b641ae8cb691c174`, which exercises the stripe,
merge and every tail branch). -/

def xxM : Nat := 2 ^ 64

def xxPrime1 : Nat := 0x9E3779B185EBCA87

def xxPrime2 : Nat := 0xC2B2AE3D27D4EB4F

def xxPrime3 : Nat := 0x165667B19E3779F9

def xxPrime4 : Nat := 0x85EBCA77C2B2AE63

def xxPrime5 : Nat := 0x27D4EB2F165667C5

/-- Left rotation of a 64-bit value (represented as a `Nat` below `2 ^ 64`). -/
def rotl64 (x r : Nat) : Nat := (x % 2 ^ (64 - r)) * 2 ^ r + x / 2 ^ (64 - r)

/-- The XXH64 round function. -/
def xxhRound (acc lane : Nat) : Nat :=
  rotl64 ((acc + lane * xxPrime2) % xxM) 31 * xxPrime1 % xxM

/-- Merge one stripe accumulator into the converged accumulator. -/
def xxhMerge (acc a : Nat) : Nat :=
  ((acc ^^^ xxhRound 0 a) * xxPrime1 + xxPrime4) % xxM

/-- Little-endian read of a byte list as an unsigned integer. -/
def le64 (bytes : List Nat) : Nat := bytes.foldr (fun b acc => b + 256 * acc) 0

/-- Stripe loop: consume 32-byte stripes while at least 32 bytes remain.
The fuel argument is instantiated with the input length, which bounds the
number of iterations. -/
def xxhStripes : Nat → Nat × Nat × Nat × Nat → List Nat →
    (Nat × Nat × Nat × Nat) × List Nat
  | 0, a, l => (a, l)
  | fuel + 1, (a1, a2, a3, a4), l =>
    if 32 ≤ l.length then
      xxhStripes fuel
        (xxhRound a1 (le64 (l.take 8)), xxhRound a2 (le64 ((l.drop 8).take 8)),
         xxhRound a3 (le64 ((l.drop 16).take 8)), xxhRound a4 (le64 ((l.drop 24).take 8)))
        (l.drop 32)
    else ((a1, a2, a3, a4), l)

/-- Tail loop consuming 8-byte lanes while at least 8 bytes remain. -/
def xxhTail8 : Nat → Nat → List Nat → Nat × List Nat
  | 0, acc, l => (acc, l)
  | fuel + 1, acc, l =>
    if 8 ≤ l.length then
      xxhTail8 fuel
        ((rotl64 (acc ^^^ xxhRound 0 (le64 (l.take 8))) 27 * xxPrime1 + xxPrime4) % xxM)
        (l.drop 8)
    else (acc, l)

/-- Final avalanche mixing. -/
def xxhAvalanche (a : Nat) : Nat :=
  let b := (a ^^^ (a >>> 33)) * xxPrime2 % xxM
  let c := (b ^^^ (b >>> 29)) * xxPrime3 % xxM
  c ^^^ (c >>> 32)

/-- XXH64 of a byte list with the given seed (the code always uses seed 0). -/
def xxh64 (input : List Nat) (seed : Nat) : Nat :=
  let n := input.length
  let start :=
    if 32 ≤ n then
      let s := xxhStripes n
        ((seed + xxPrime1 + xxPrime2) % xxM, (seed + xxPrime2) % xxM,
         seed % xxM, (seed + (xxM - xxPrime1)) % xxM) input
      let a := s.1
      (xxhMerge (xxhMerge (xxhMerge (xxhMerge
        ((rotl64 a.1 1 + rotl64 a.2.1 7 + rotl64 a.2.2.1 12 + rotl64 a.2.2.2 18) % xxM)
        a.1) a.2.1) a.2.2.1) a.2.2.2, s.2)
    else ((seed + xxPrime5) % xxM, input)
  let withLen := (start.1 + n) % xxM
  let t8 := xxhTail8 start.2.length withLen start.2
  let t4 :=
    if 4 ≤ t8.2.length then
      ((rotl64 (t8.1 ^^^ le64 (t8.2.take 4) * xxPrime1 % xxM) 23 * xxPrime2 + xxPrime3) % xxM,
       t8.2.drop 4)
    else t8
  let t1 := t4.2.foldl (fun acc b => rotl64 (acc ^^^ b * xxPrime5 % xxM) 11 * xxPrime1 % xxM) t4.1
  xxhAvalanche t1

/-! ## Hash rendering and the landmark hasher

`_generate_hashes_for_index` in `audio_processing.py` renders the pair as
the string `"{freq1}|{freq2}|{time2 - time1}"`, UTF-8 encodes it, takes
`xxhash.xxh64(...).hexdigest()` (16 lowercase zero-padded hex characters)
and keeps the first 10 characters. -/

/-- The sixteen lowercase hexadecimal digit characters. -/
def hexDigits : List Char := "0123456789abcdef".data

/-- The hexadecimal digit character for a value below 16. -/
def hexChar (d : Nat) : Char := hexDigits.getD d '0'

/-- Zero-padded lowercase hexadecimal rendering of `n` to `w` characters,
most significant digit first, as produced by `hexdigest()`. -/
def hexRender (w n : Nat) : List Char :=
  (List.range w).map (fun i => hexChar (n / 16 ^ (w - 1 - i) % 16))

/-- UTF-8 encoding of a single Unicode code point. -/
def utf8Bytes (c : Nat) : List Nat :=
  if c < 0x80 then [c]
  else if c < 0x800 then [0xC0 + c / 64, 0x80 + c % 64]
  else if c < 0x10000 then [0xE0 + c / 4096, 0x80 + c / 64 % 64, 0x80 + c % 64]
  else [0xF0 + c / 262144, 0x80 + c / 4096 % 64, 0x80 + c / 64 % 64, 0x80 + c % 64]

/-- UTF-8 encoding of a string, modelling Python's `str.encode()`. -/
def strBytes (s : String) : List Nat := s.data.flatMap (fun c => utf8Bytes c.toNat)

/-- The pre-hash string `"{freq1}|{freq2}|{time2 - time1}"`. -/
def fingerprintString (f1 f2 dt : Int) : String :=
  toString f1 ++ "|" ++ toString f2 ++ "|" ++ toString dt

/-- The emitted hash text: `xxhash.xxh64(hash_str.encode()).hexdigest()[:10]`. -/
def hashOf (f1 f2 dt : Int) : String :=
  ⟨(hexRender 16 (xxh64 (strBytes (fingerprintString f1 f2 dt)) 0)).take 10⟩

/-- The hash emitted for an ordered landmark pair `(f1, t1), (f2, t2)`. -/
def pairHash (p q : Int × Int) : String := hashOf p.1 q.1 (q.2 - p.2)

/-! ## Peak extraction, from `get_peaks` in `audio_processing.py`

`maximum_filter(spectrogram, size=(10, 10))` computes, at each cell, the
maximum over the 10x10 window spanning offsets -5..+4 in each axis
(scipy's default origin for an even window), with reflect boundary
handling, which for a maximum filter equals the maximum over the window
clipped to the grid.  `np.percentile` uses linear interpolation between
the order statistics at fractional position `p / 100 * (N - 1)`.  The
grid is the spectrogram magnitude array, modelled with rational values;
`np.where` enumerates hits in row-major order. -/

/-- Value of the grid at row `i`, column `j` (0 outside, never consulted
out of range by the definitions below). -/
def gridVal (g : List (List ℚ)) (i j : Nat) : ℚ := (g.getD i []).getD j 0

/-- Length of row `i` of the grid. -/
def rowLen (g : List (List ℚ)) (i : Nat) : Nat := (g.getD i []).length

/-- Maximum of a nonempty list of rationals (0 for the empty list, which
the peak extractor never produces). -/
def listMax : List ℚ → ℚ
  | [] => 0
  | x :: xs => xs.foldl max x

/-- Indices covered by the size-10 window centred (with scipy's even-size
origin) at `i`, clipped to `[0, m)`: the offsets -5..+4. -/
def winIdx (i m : Nat) : List Nat :=
  (List.range m).filter (fun r => decide (i - 5 ≤ r ∧ r ≤ i + 4))

/-- The value `maximum_filter(g, size=(10, 10))` takes at cell `(i, j)`. -/
def windowMax (g : List (List ℚ)) (i j : Nat) : ℚ :=
  listMax ((winIdx i g.length).flatMap (fun r => (winIdx j (rowLen g r)).map (gridVal g r)))

/-- `np.percentile(xs, p)` with the default linear interpolation. -/
def percentile (xs : List ℚ) (p : ℚ) : ℚ :=
  let s := List.insertionSort (· ≤ ·) xs
  let pos : ℚ := p / 100 * ((xs.length : ℚ) - 1)
  let k : Nat := (⌊pos⌋).toNat
  let lo := s.getD k 0
  lo + (pos - (k : ℚ)) * (s.getD (min (k + 1) (xs.length - 1)) 0 - lo)

/-- `get_peaks`: coordinates whose value equals the local 10x10 window
maximum and strictly exceeds the `threshold`-th percentile of the whole
grid, in `np.where`'s row-major order. -/
def get_peaks (g : List (List ℚ)) (threshold : ℚ) : List (Nat × Nat) :=
  (List.range g.length).flatMap (fun i =>
    (List.range (rowLen g i)).filterMap (fun j =>
      if gridVal g i j = windowMax g i j ∧ gridVal g i j > percentile g.flatten threshold
      then some (i, j) else none))

/-! ## Landmark hashing, from `audio_processing.py`

A landmark is a `(frequency, time)` coordinate; the list is in the
extractor's scan order.  `_generate_hashes_for_index(i, peaks, fan_value)`
pairs landmark `i` with landmarks `i + j` for `j in range(1, fan_value)`
when `i + j` is in range, and `generate_hashes` concatenates the results
over all `i` (the `RecordSkelly.py` variant farms the indices to a thread
pool; each index's output is the same list).  Indexing is modelled with
`getD`, consulted only under the in-range guard exactly as the code's
`if i + j < len(peaks)` ensures. -/

/-- Model of `_generate_hashes_for_index`. -/
def genHashesForIndex (i : Nat) (peaks : List (Int × Int)) (fan_value : Nat) :
    List (String × Int) :=
  (List.range' 1 (fan_value - 1)).filterMap (fun j =>
    if i + j < peaks.length then
      some (pairHash (peaks.getD i (0, 0)) (peaks.getD (i + j) (0, 0)), (peaks.getD i (0, 0)).2)
    else none)

/-- Model of `generate_hashes`. -/
def generate_hashes (peaks : List (Int × Int)) (fan_value : Nat) : List (String × Int) :=
  (List.range peaks.length).flatMap (fun i => genHashesForIndex i peaks fan_value)

/-- The ordered index pairs `(i, i + j)`, `j` in `[1, F - 1]`, both in
range, enumerated as the specification describes them. -/
def orderedPairIndices (n F : Nat) : List (Nat × Nat) :=
  (List.range n).flatMap (fun i =>
    ((List.range n).filter (fun k => decide (i < k ∧ k < i + F))).map (fun k => (i, k)))

/-- The hasher as the specification words it: exactly one fingerprint per
ordered pair, the offset being the first landmark's time coordinate. -/
def generateHashesSpec (peaks : List (Int × Int)) (F : Nat) : List (String × Int) :=
  (orderedPairIndices peaks.length F).map (fun ik =>
    (pairHash (peaks.getD ik.1 (0, 0)) (peaks.getD ik.2 (0, 0)), (peaks.getD ik.1 (0, 0)).2))

/-- Translation of a landmark set by a constant time offset. -/
def translateTime (c : Int) (peaks : List (Int × Int)) : List (Int × Int) :=
  peaks.map (fun p => (p.1, p.2 + c))

/-! ## The fingerprint store, from `database.py`

The `songs` table is `(id INTEGER PRIMARY KEY AUTOINCREMENT, name)` and
the `fingerprints` table is `(hash, song_id, time_offset)`; both are
modelled as lists of rows in insertion (rowid) order, with the
autoincrement counter made explicit.  A `SELECT ... WHERE hash IN (...)`
returns each matching row once (`IN` is set membership), modelled as a
filter over the rows. -/

structure Store where
  nextId : Nat
  songs : List (Nat × String)
  fps : List (String × Nat × Int)
deriving DecidableEq

/-- The empty store: fresh database after `create_tables`. -/
def Store.empty : Store := ⟨1, [], []⟩

/-- `insert_song`: insert a row, return `lastrowid` and the new store. -/
def insert_song (st : Store) (name : String) : Nat × Store :=
  (st.nextId, ⟨st.nextId + 1, st.songs ++ [(st.nextId, name)], st.fps⟩)

/-- `insert_fingerprints`: bulk append of `(hash, song_id, time_offset)` rows. -/
def insert_fingerprints (st : Store) (song_id : Nat) (hashes : List (String × Int)) : Store :=
  ⟨st.nextId, st.songs, st.fps ++ hashes.map (fun h => (h.1, song_id, h.2))⟩

/-- One `SELECT song_id, time_offset FROM fingerprints WHERE hash IN (...)`
query: every stored row whose hash is in the requested collection, once. -/
def dbSelectPairs (st : Store) (hs : List String) : List (Nat × Int) :=
  (st.fps.filter (fun r => decide (r.1 ∈ hs))).map (fun r => (r.2.1, r.2.2))

/-- The chunks `hashes[i : i + batch_size]` for `i in range(0, total,
batch_size)`, via fuel recursion (the fuel, instantiated with the list
length, suffices whenever `batch_size ≥ 1`, as in the code). -/
def chunksOfAux (bs : Nat) : Nat → List α → List (List α)
  | _, [] => []
  | 0, _ => []
  | fuel + 1, l => l.take bs :: chunksOfAux bs fuel (l.drop bs)

/-- The batches the chunked lookup iterates over. -/
def chunksOf (bs : Nat) (l : List α) : List (List α) := chunksOfAux bs l.length l

/-- `find_matches_batch`: final accumulated match list after querying the
store chunk by chunk (the generator also yields progress tuples; the value
of interest to the matcher is the accumulated list, whose final state is
the concatenation of the per-chunk results). -/
def find_matches_batch (st : Store) (hashes : List (String × Int)) (batch_size : Nat := 1000) :
    List (Nat × Int) :=
  (chunksOf batch_size hashes).flatMap (fun c => dbSelectPairs st (c.map Prod.fst))

/-- One step of `collections.Counter` construction: increment the count
for `s`, appending a fresh key at the end (Python dicts preserve
insertion order). -/
def bump : List (Nat × Nat) → Nat → List (Nat × Nat)
  | [], s => [(s, 1)]
  | p :: ps, s => if p.1 = s then (p.1, p.2 + 1) :: ps else p :: bump ps s

/-- `Counter(song_id for song_id, _ in matches)` as an insertion-ordered
association list of counts. -/
def counter (l : List Nat) : List (Nat × Nat) := l.foldl bump []

/-- `Counter.most_common(n)`: the `n` largest-count entries.  CPython's
`heapq.nlargest` is documented and implemented as a stable descending
sort by count followed by `take n`; `orderedInsert`-based insertion sort
with this comparison places an element after all strictly larger counts
and before equal ones, which is exactly that stable order. -/
def mostCommon (n : Nat) (l : List (Nat × Nat)) : List (Nat × Nat) :=
  (List.insertionSort (fun a b => b.2 ≤ a.2) l).take n

/-- `SELECT name FROM songs WHERE id = ?` (`id` is the primary key, so
the first matching row is the row). -/
def songLookup (st : Store) (sid : Nat) : Option String :=
  (st.songs.find? (fun q => q.1 == sid)).map Prod.snd

/-- Name resolution over the ranked counts: candidates whose id has no
row in `songs` are silently skipped (`if row:`). -/
def resolveNames (st : Store) (top : List (Nat × Nat)) : List (String × Nat) :=
  top.filterMap (fun p => (songLookup st p.1).map (fun nm => (nm, p.2)))

/-- `best_matches` from `database.py` (interactive path): chunked lookup
with the reference chunk size 1000, per-entry counting, `most_common`
with `top_n` defaulting to 5, then name resolution.  An empty `hashes`
list leaves the generator's last progress tuple as `None` and an empty
match list returns `[]`; both yield the empty ranked list. -/
def best_matches (st : Store) (hashes : List (String × Int)) (top_n : Nat := 5) :
    List (String × Nat) :=
  if hashes.isEmpty then []
  else if (find_matches_batch st hashes 1000).isEmpty then []
  else resolveNames st
    (mostCommon top_n (counter ((find_matches_batch st hashes 1000).map Prod.fst)))

/-! ## The comparison-mode matcher, from `RecordSkelly.py`

`find_matches` issues one `SELECT ... WHERE hash = ?` per query hash, in
query order, extending the match list each time (duplicate query hashes
re-fetch their rows); `best_matches` there uses `top_n=3`. -/

/-- Model of `RecordSkelly.find_matches`. -/
def findMatchesRS (st : Store) (hashes : List (String × Int)) : List (Nat × Int) :=
  hashes.flatMap (fun h => (st.fps.filter (fun r => r.1 == h.1)).map (fun r => (r.2.1, r.2.2)))

/-- Model of `RecordSkelly.best_matches` (non-interactive comparison mode). -/
def bestMatchesRS (st : Store) (hashes : List (String × Int)) (top_n : Nat := 3) :
    List (String × Nat) :=
  if (findMatchesRS st hashes).isEmpty then []
  else resolveNames st (mostCommon top_n (counter ((findMatchesRS st hashes).map Prod.fst)))

/-! ## The query worker, from `QueryWorker.run` in `workers.py`

The run method fingerprints the query file (the pure pipeline stages
above), then performs the chunked lookup itself with `batch_size = 1000`,
checking the cooperative cancellation flag at the top of each chunk
iteration.  On cancellation it emits `("Cancelled", [])`; with no matches
it emits `(None, [])`; otherwise it ranks with `most_common(5)`, resolves
names, and emits `(best, similar)`.  The flag is set asynchronously by
`cancel()`; it is modelled as a predicate on the chunk-boundary check
index.  The result carries the store to make explicit what the run leaves
behind: every branch performs only `SELECT`s. -/

inductive QResult where
  | cancelled : QResult
  | answer : Option (String × Nat) → List (String × Nat) → QResult
deriving DecidableEq

/-- A cancellation flag that is requested just before the `r`-th
chunk-boundary check and, being a latch, stays set afterwards. -/
def cancelFrom (r : Nat) : Nat → Bool := fun k => decide (r ≤ k)

/-- The chunked lookup loop of `QueryWorker.run`: at check index `k`, a
set flag exits with the matches accumulated so far; otherwise the chunk
is queried in full and accumulated.  The Boolean records whether the exit
was a cancellation. -/
def queryLoop (st : Store) (cancel : Nat → Bool) :
    Nat → List (Nat × Int) → List (List (String × Int)) → Bool × List (Nat × Int)
  | _, acc, [] => (false, acc)
  | k, acc, c :: cs =>
    if cancel k then (true, acc)
    else queryLoop st cancel (k + 1) (acc ++ dbSelectPairs st (c.map Prod.fst)) cs

/-- Model of `QueryWorker.run` from the matching phase on: the emitted
result together with the store the worker leaves behind. -/
def runQuery (st : Store) (hashes : List (String × Int)) (cancel : Nat → Bool) :
    QResult × Store :=
  match queryLoop st cancel 0 [] (chunksOf 1000 hashes) with
  | (true, _) => (QResult.cancelled, st)
  | (false, ms) =>
    if ms.isEmpty then (QResult.answer none [], st)
    else
      match resolveNames st (mostCommon 5 (counter (ms.map Prod.fst))) with
      | [] => (QResult.answer none [], st)
      | b :: rest => (QResult.answer (some b) rest, st)

/-! ## Batch ingest: `BatchWorker.run` in `workers.py` and the
batch-add branch of `main_menu` in `RecordSkelly.py`

A folder entry is its song name (the filename stem) together with the
outcome of the decode-and-fingerprint pipeline for that file: the
fingerprint list, or the exception message the pipeline raised (an
undecodable file).  `main_menu` wraps each file in its own
`try/except` and continues; `BatchWorker.run` wraps the whole loop in
one `try/except`, so its first failing file ends the run with a single
`"Error: ..."` signal.  Cancellation of the batch worker is modelled as
never requested. -/

abbrev AudioFile := String × Except String (List (String × Int))

/-- Whether the file decodes and fingerprints without an exception. -/
def decodeOk (f : AudioFile) : Bool :=
  match f.2 with
  | .ok _ => true
  | .error _ => false

/-- Ingest one decoded file: `insert_song` then `insert_fingerprints`. -/
def ingestOne (st : Store) (name : String) (hs : List (String × Int)) : Store :=
  let r := insert_song st name
  insert_fingerprints r.2 r.1 hs

/-- The store after ingesting every decodable file of a list, skipping
the failing ones. -/
def ingestAll (st : Store) (files : List AudioFile) : Store :=
  files.foldl (fun s f =>
    match f.2 with
    | .ok hs => ingestOne s f.1 hs
    | .error _ => s) st

/-- The CLI batch-add branch of `main_menu`: per-file `try/except`; a
failure is reported for that file and the loop continues.  Returns the
final store and the per-file error reports. -/
def mainMenuBatch (st : Store) (files : List AudioFile) : Store × List String :=
  files.foldl (fun acc f =>
    match f.2 with
    | .ok hs => ((ingestOne acc.1 f.1 hs, acc.2) : Store × List String)
    | .error e => (acc.1, acc.2 ++ ["Error processing " ++ f.1 ++ ": " ++ e])) (st, [])

/-- The file loop of `BatchWorker.run`: the whole loop sits in a single
`try/except`, so the first exception aborts the run, emitting one
`"Error: ..."` message. -/
def batchWorkerLoop (st : Store) (total : Nat) : List AudioFile → Store × String
  | [] => (st, "Added " ++ toString total ++ " songs successfully.")
  | f :: fs =>
    match f.2 with
    | .ok hs => batchWorkerLoop (ingestOne st f.1 hs) total fs
    | .error e => (st, "Error: " ++ e)

/-- Model of `BatchWorker.run` on the folder's MP3 files. -/
def batchWorkerRun (st : Store) (files : List AudioFile) : Store × String :=
  if files.isEmpty then (st, "No MP3 files found.")
  else batchWorkerLoop st files.length files

/-! ## Helper lemmas -/

/-- Every hexadecimal digit value renders to a hexadecimal character. -/
lemma hexChar_mem_hexDigits (d : Nat) (h : d < 16) : hexChar d ∈ hexDigits := by
  interval_cases d <;> decide

/-- Truncating the 16-character digest to its first 10 characters is the
10-character rendering of the high 40 bits of the digest. -/
lemma hexRender_take_ten (n : Nat) :
    (hexRender 16 n).take 10 = hexRender 10 (n / 2 ^ 24) := by
  unfold hexRender
  rw [← List.map_take, List.take_range]
  apply List.map_congr_left
  intro i hi
  rw [List.mem_range] at hi
  have h15 : 16 ^ (16 - 1 - i) = 2 ^ 24 * 16 ^ (10 - 1 - i) := by
    have : 16 - 1 - i = 6 + (10 - 1 - i) := by omega
    rw [this, pow_add]
    norm_num
  rw [h15, ← Nat.div_div_eq_div_mul]

/-! ## Claim C5 -/

/-- C5 (amended): the emitted hash string is 10 hexadecimal characters,
and it equals the HIGH 40 bits (bits 63..24) of the 64-bit XXH64 digest
rendered as text — `hexdigest()` renders the digest most significant
digit first, so `[:10]` keeps the top 10 of 16 hex digits, not the low
40 bits the claim states. -/
theorem claim_C5_amended (f1 f2 dt : Int) :
    (hashOf f1 f2 dt).length = 10 ∧
    (∀ c ∈ (hashOf f1 f2 dt).data, c ∈ hexDigits) ∧
    hashOf f1 f2 dt =
      ⟨hexRender 10 (xxh64 (strBytes (fingerprintString f1 f2 dt)) 0 / 2 ^ 24)⟩ := by
  refine ⟨?_, ?_, ?_⟩
  · show (hashOf f1 f2 dt).data.length = 10
    unfold hashOf hexRender
    simp
  · intro c hc
    unfold hashOf at hc
    have hc' : c ∈ hexRender 16 (xxh64 (strBytes (fingerprintString f1 f2 dt)) 0) :=
      List.take_subset _ _ hc
    unfold hexRender at hc'
    simp only [List.mem_map] at hc'
    obtain ⟨i, _, rfl⟩ := hc'
    exact hexChar_mem_hexDigits _ (Nat.mod_lt _ (by norm_num))
  · unfold hashOf
    rw [hexRender_take_ten]

/-- C5 counterexample: at the concrete landmark data `(f1, f2, Δt) =
(1, 2, 3)` the emitted string is `"1bb5135f69"` (the high 40 bits of the
digest `1bb5135f697bf6a3`), which differs from the low 40 bits
(`"5f697bf6a3"`) rendered as text, so the claim as stated is false. -/
theorem claim_C5_counterexample :
    hashOf 1 2 3 = "1bb5135f69" ∧
    hashOf 1 2 3 ≠
      ⟨hexRender 10 (xxh64 (strBytes (fingerprintString 1 2 3)) 0 % 2 ^ 40)⟩ := by
  constructor
  · decide
  · decide

/-! ## Claim C3 -/

/-- Reading a time-translated landmark list at an in-range index yields
the original landmark with its time shifted. -/
lemma getD_translateTime (c : Int) (peaks : List (Int × Int)) (i : Nat)
    (h : i < peaks.length) :
    (translateTime c peaks).getD i (0, 0) =
      ((peaks.getD i (0, 0)).1, (peaks.getD i (0, 0)).2 + c) := by
  unfold translateTime
  rw [List.getD_eq_getElem _ _ (by simpa using h), List.getD_eq_getElem _ _ h,
    List.getElem_map]

/-- Hashing a pair of landmarks with both times shifted by the same
constant yields the same hash string. -/
lemma pairHash_translate (p q : Int × Int) (c : Int) :
    pairHash (p.1, p.2 + c) (q.1, q.2 + c) = pairHash p q := by
  unfold pairHash
  have : q.2 + c - (p.2 + c) = q.2 - p.2 := by ring
  simp only [this]

/-- For any index, the hash components emitted for a time-translated
landmark list coincide with those for the original list. -/
lemma genHashesForIndex_translate (c : Int) (peaks : List (Int × Int)) (i F : Nat) :
    (genHashesForIndex i (translateTime c peaks) F).map Prod.fst =
      (genHashesForIndex i peaks F).map Prod.fst := by
  unfold genHashesForIndex
  have hlen : (translateTime c peaks).length = peaks.length := by
    unfold translateTime; simp
  rw [List.map_filterMap, List.map_filterMap]
  apply List.filterMap_congr
  intro j hj
  have hj1 : 1 ≤ j := (List.mem_range'_1.mp hj).1
  rw [hlen]
  by_cases h : i + j < peaks.length
  · have hi : i < peaks.length := by omega
    simp only [if_pos h, Option.map_some']
    rw [getD_translateTime c peaks i hi, getD_translateTime c peaks (i + j) h,
      pairHash_translate]
  · simp only [if_neg h, Option.map_none']

/-- C3: the fingerprint hash depends on exactly the two frequencies and
the time delta — pairs with equal `(f1, f2, Δt)` hash identically — and
translating every landmark by a constant time offset leaves the list
(hence the multiset) of emitted hash values unchanged. -/
theorem claim_C3 :
    (∀ f1 f2 t1 t2 t1' t2' : Int, t2 - t1 = t2' - t1' →
      pairHash (f1, t1) (f2, t2) = pairHash (f1, t1') (f2, t2')) ∧
    (∀ (peaks : List (Int × Int)) (c : Int) (F : Nat),
      (generate_hashes (translateTime c peaks) F).map Prod.fst =
        (generate_hashes peaks F).map Prod.fst) := by
  constructor
  · intro f1 f2 t1 t2 t1' t2' h
    unfold pairHash
    simp only [h]
  · intro peaks c F
    unfold generate_hashes
    have hlen : (translateTime c peaks).length = peaks.length := by
      unfold translateTime; simp
    rw [hlen, List.map_flatMap, List.map_flatMap]
    apply List.flatMap_congr
    intro i _
    exact genHashesForIndex_translate c peaks i F

/-- C3 witness: two concrete landmark pairs sharing `(f1, f2, Δt) =
(3, 7, 2)` at different absolute positions hash identically. -/
theorem claim_C3_witness :
    pairHash (3, 10) (7, 12) = pairHash (3, 100) (7, 102) :=
  claim_C3.1 3 7 10 12 100 102 (by decide)

/-! ## Claim C4 -/

/-- A `filterMap` whose function is a guarded `some` is a `filter`
followed by a `map`. -/
lemma filterMap_guard {α β : Type} (p : α → Prop) [DecidablePred p] (f : α → β)
    (l : List α) :
    l.filterMap (fun a => if p a then some (f a) else none) =
      (l.filter (fun a => decide (p a))).map f := by
  induction l with
  | nil => rfl
  | cons x xs ih => by_cases h : p x <;> simp [h, ih]

/-- The look-ahead offsets `j` with `i + j` in range enumerate, after
shifting by `i`, exactly the partner indices `k` with `i < k < i + F`
inside the landmark list. -/
lemma pairPartners_eq (i n F : Nat) :
    ((List.range' 1 (F - 1)).filter (fun j => decide (i + j < n))).map (fun j => i + j) =
      (List.range n).filter (fun k => decide (i < k ∧ k < i + F)) := by
  haveI : IsAntisymm Nat (· < ·) :=
    ⟨fun a b h1 h2 => absurd (lt_trans h1 h2) (lt_irrefl a)⟩
  have hs1 : List.Sorted (· < ·)
      (((List.range' 1 (F - 1)).filter (fun j => decide (i + j < n))).map (fun j => i + j)) := by
    rw [List.Sorted, List.pairwise_map]
    exact (List.Pairwise.filter _ (by
      simpa using (List.pairwise_lt_range' 1 (F - 1) 1 (by omega)))).imp
      (fun h => by omega)
  have hs2 : List.Sorted (· < ·)
      ((List.range n).filter (fun k => decide (i < k ∧ k < i + F))) :=
    List.Pairwise.filter _ (List.sorted_lt_range n)
  refine List.eq_of_perm_of_sorted ?_ hs1 hs2
  refine (List.perm_ext_iff_of_nodup (hs1.imp fun h => by omega)
    (hs2.imp fun h => by omega)).2 ?_
  intro a
  simp only [List.mem_map, List.mem_filter, List.mem_range, List.mem_range'_1,
    decide_eq_true_eq]
  constructor
  · rintro ⟨j, ⟨⟨hj1, hj2⟩, hjn⟩, rfl⟩
    omega
  · rintro ⟨han, hia, haF⟩
    exact ⟨a - i, ⟨⟨by omega, by omega⟩, by omega⟩, by omega⟩

/-- C4: for every fan-out `F ≥ 2` the hasher emits exactly one
fingerprint per ordered pair `(landmark[i], landmark[i + j])`, `j` in
`[1, F - 1]` with `i + j` in range, the fingerprint's time offset being
the first landmark's time coordinate — `generate_hashes` agrees with the
specification-shaped enumeration `generateHashesSpec`. -/
theorem claim_C4 (peaks : List (Int × Int)) (F : Nat) (_hF : 2 ≤ F) :
    generate_hashes peaks F = generateHashesSpec peaks F := by
  unfold generate_hashes generateHashesSpec orderedPairIndices
  rw [List.map_flatMap]
  apply List.flatMap_congr
  intro i _
  unfold genHashesForIndex
  rw [filterMap_guard (fun j => i + j < peaks.length)
    (fun j => (pairHash (peaks.getD i (0, 0)) (peaks.getD (i + j) (0, 0)),
      (peaks.getD i (0, 0)).2)),
    ← pairPartners_eq i peaks.length F, List.map_map, List.map_map]
  rfl

/-- C4 witness: the theorem instantiated at a concrete landmark list and
the minimal fan-out value 2. -/
theorem claim_C4_witness :
    generate_hashes [((0 : Int), (0 : Int)), (1, 5), (2, 9)] 2 =
      generateHashesSpec [((0 : Int), (0 : Int)), (1, 5), (2, 9)] 2 :=
  claim_C4 [(0, 0), (1, 5), (2, 9)] 2 (by decide)

/-! ## Claim C7 -/

/-- Sorting a constant list leaves it unchanged. -/
lemma insertionSort_replicate (n : Nat) (c : ℚ) :
    List.insertionSort (· ≤ ·) (List.replicate n c) = List.replicate n c := by
  have hp := List.perm_insertionSort (α := ℚ) (· ≤ ·) (List.replicate n c)
  refine List.eq_replicate_iff.2 ⟨?_, ?_⟩
  · simp [hp.length_eq]
  · intro b hb
    exact List.eq_of_mem_replicate (hp.mem_iff.1 hb)

/-- Reading a constant list inside its bounds yields the constant. -/
lemma getD_replicate_of_lt {α : Type} (n k : Nat) (c d : α) (h : k < n) :
    (List.replicate n c).getD k d = c := by
  rw [List.getD_eq_getElem _ _ (by simpa using h)]
  exact List.getElem_replicate ..

/-- The percentile of a constant nonempty sample is that constant, for
any percentile rank within `[0, 100]`. -/
lemma percentile_replicate (n : Nat) (hn : 1 ≤ n) (c p : ℚ) (h0 : 0 ≤ p)
    (h100 : p ≤ 100) :
    percentile (List.replicate n c) p = c := by
  unfold percentile
  rw [insertionSort_replicate]
  simp only [List.length_replicate]
  set pos : ℚ := p / 100 * ((n : ℚ) - 1) with hpos
  have hpos0 : 0 ≤ pos := by
    apply mul_nonneg (by positivity)
    have : (1 : ℚ) ≤ (n : ℚ) := by exact_mod_cast hn
    linarith
  have hposle : pos ≤ (n : ℚ) - 1 := by
    have h1 : p / 100 ≤ 1 := by linarith [div_le_one_of_le₀ h100 (by norm_num : (0:ℚ) ≤ 100)]
    have h2 : (0 : ℚ) ≤ (n : ℚ) - 1 := by
      have : (1 : ℚ) ≤ (n : ℚ) := by exact_mod_cast hn
      linarith
    calc pos ≤ 1 * ((n : ℚ) - 1) := mul_le_mul_of_nonneg_right h1 h2
    _ = (n : ℚ) - 1 := one_mul _
  have hk : (⌊pos⌋).toNat < n := by
    have h1 : ⌊pos⌋ ≤ ⌊(n : ℚ) - 1⌋ := Int.floor_le_floor hposle
    have h2 : ⌊(n : ℚ) - 1⌋ = (n : ℤ) - 1 := by
      rw [show ((n : ℚ) - 1) = ((n - 1 : ℤ) : ℚ) by push_cast; ring, Int.floor_intCast]
    omega
  rw [getD_replicate_of_lt n _ c 0 hk, getD_replicate_of_lt n _ c 0 (by omega)]
  ring

/-- Flattening a constant grid gives a constant sample of size `m * n`. -/
lemma flatten_replicate_grid (m n : Nat) (c : ℚ) :
    (List.replicate m (List.replicate n c)).flatten = List.replicate (m * n) c := by
  induction m with
  | zero => simp
  | succ k ih =>
    rw [List.replicate_succ, List.flatten_cons, ih, ← List.replicate_add]
    congr 1
    ring

/-- Every in-range cell of a constant grid holds the constant. -/
lemma gridVal_replicate (m n : Nat) (c : ℚ) (i j : Nat) (hi : i < m) (hj : j < n) :
    gridVal (List.replicate m (List.replicate n c)) i j = c := by
  unfold gridVal
  rw [getD_replicate_of_lt m i (List.replicate n c) [] hi, getD_replicate_of_lt n j c 0 hj]

/-- Membership in the peak list is exactly the conjunction the extractor
tests: in-range coordinates whose value equals the local window maximum
and strictly exceeds the percentile gate. -/
lemma mem_get_peaks_iff (g : List (List ℚ)) (p : ℚ) (i j : Nat) :
    (i, j) ∈ get_peaks g p ↔
      i < g.length ∧ j < rowLen g i ∧ gridVal g i j = windowMax g i j ∧
        gridVal g i j > percentile g.flatten p := by
  unfold get_peaks
  simp only [List.mem_flatMap, List.mem_range, List.mem_filterMap]
  constructor
  · rintro ⟨i', hi', j', hj', hsome⟩
    split_ifs at hsome with hcond
    cases hsome
    exact ⟨hi', hj', hcond.1, hcond.2⟩
  · rintro ⟨hi, hj, heq, hgt⟩
    exact ⟨i, hi, j, hj, by rw [if_pos ⟨heq, hgt⟩]⟩

/-- C7: the extractor returns exactly the coordinates that equal their
10x10 local window maximum and strictly exceed the `p`-th percentile of
the grid, and a uniform grid yields the empty peak list as a normal
value. -/
theorem claim_C7 (g : List (List ℚ)) (p : ℚ) (h0 : 0 ≤ p) (h100 : p ≤ 100) :
    (∀ i j : Nat, (i, j) ∈ get_peaks g p ↔
      i < g.length ∧ j < rowLen g i ∧ gridVal g i j = windowMax g i j ∧
        gridVal g i j > percentile g.flatten p) ∧
    (∀ (m n : Nat) (c : ℚ), g = List.replicate m (List.replicate n c) →
      get_peaks g p = []) := by
  refine ⟨fun i j => mem_get_peaks_iff g p i j, ?_⟩
  rintro m n c rfl
  refine List.eq_nil_iff_forall_not_mem.2 ?_
  rintro ⟨i, j⟩ hx
  rw [mem_get_peaks_iff] at hx
  obtain ⟨hi, hj, _, hgt⟩ := hx
  rw [List.length_replicate] at hi
  unfold rowLen at hj
  rw [getD_replicate_of_lt m i (List.replicate n c) [] hi, List.length_replicate] at hj
  rw [gridVal_replicate m n c i j hi hj, flatten_replicate_grid,
    percentile_replicate (m * n) (Nat.one_le_iff_ne_zero.2 (Nat.mul_ne_zero (by omega) (by omega)))
      c p h0 h100] at hgt
  exact lt_irrefl c hgt

/-- C7 witness: a concrete uniform 3x4 grid with the default loudness
gate 20 yields no peaks. -/
theorem claim_C7_witness :
    get_peaks (List.replicate 3 (List.replicate 4 (5 : ℚ))) 20 = [] :=
  (claim_C7 (List.replicate 3 (List.replicate 4 (5 : ℚ))) 20 (by norm_num)
    (by norm_num)).2 3 4 5 rfl

/-! ## Claim C2 -/

/-- A chunk pass over the empty list yields no chunks. -/
lemma chunksOfAux_nil {α : Type} (bs : Nat) : ∀ fuel, chunksOfAux bs fuel ([] : List α) = []
  | 0 => rfl
  | _ + 1 => rfl

/-- Concatenating the chunks recovers the original list (the fuel bound
holds whenever the chunk size is at least 1, which the code guarantees). -/
lemma chunksOfAux_flatten {α : Type} (bs : Nat) (hbs : 1 ≤ bs) :
    ∀ (fuel : Nat) (l : List α), l.length ≤ fuel → (chunksOfAux bs fuel l).flatten = l := by
  intro fuel
  induction fuel with
  | zero =>
    intro l hl
    have : l = [] := List.eq_nil_of_length_eq_zero (Nat.le_zero.mp hl)
    subst this
    rfl
  | succ f ih =>
    intro l hl
    match l with
    | [] => rfl
    | x :: xs =>
      have hstep : chunksOfAux bs (f + 1) (x :: xs) =
          (x :: xs).take bs :: chunksOfAux bs f ((x :: xs).drop bs) := rfl
      have hlen : ((x :: xs).drop bs).length ≤ f := by
        rw [List.length_drop]
        simp only [List.length_cons] at hl ⊢
        omega
      rw [hstep, List.flatten_cons, ih _ hlen, List.take_append_drop]

/-- Concatenating `chunksOf` recovers the hash list. -/
lemma chunksOf_flatten {α : Type} (bs : Nat) (hbs : 1 ≤ bs) (l : List α) :
    (chunksOf bs l).flatten = l :=
  chunksOfAux_flatten bs hbs l.length l le_rfl

/-- Every chunk element comes from the original list. -/
lemma mem_of_mem_chunksOf {α : Type} {bs : Nat} (hbs : 1 ≤ bs) {l : List α}
    {c : List α} {x : α} (hc : c ∈ chunksOf bs l) (hx : x ∈ c) : x ∈ l := by
  have := List.mem_flatten.2 ⟨c, hc, hx⟩
  rwa [chunksOf_flatten bs hbs] at this

/-- Every list element lands in some chunk. -/
lemma exists_chunk_of_mem {α : Type} {bs : Nat} (hbs : 1 ≤ bs) {l : List α}
    {x : α} (hx : x ∈ l) : ∃ c ∈ chunksOf bs l, x ∈ c := by
  rw [← chunksOf_flatten bs hbs l] at hx
  exact List.mem_flatten.1 hx

/-- Copies of a row survive a value-determined filter according to the
predicate's verdict on the row. -/
lemma count_filter_eq {α : Type} [BEq α] [LawfulBEq α] (r : α) (p : α → Bool) (l : List α) :
    (l.filter p).count r = if p r then l.count r else 0 := by
  by_cases h : p r
  · rw [List.count_filter h, if_pos h]
  · rw [if_neg h, List.count_eq_zero]
    intro hmem
    exact h (List.of_mem_filter hmem)

/-- Copies of a row in the concatenation of the per-chunk SELECT results:
one full copy count per chunk whose hash set contains the row's hash. -/
lemma count_flatMap_filter {β : Type} [DecidableEq β] (key : β → String) (r : β)
    (rows : List β) (chunks : List (List (String × Int))) :
    ((chunks.flatMap (fun c => rows.filter (fun x => decide (key x ∈ c.map Prod.fst)))).count r) =
      (chunks.countP (fun c => decide (key r ∈ c.map Prod.fst))) * rows.count r := by
  induction chunks with
  | nil => simp
  | cons c cs ih =>
    rw [List.flatMap_cons, List.count_append, ih,
      count_filter_eq r (fun x => decide (key x ∈ c.map Prod.fst)) rows, List.countP_cons]
    cases hb : decide (key r ∈ c.map Prod.fst) with
    | false =>
      rw [if_neg (by simp), if_neg (by simp)]
      ring
    | true =>
      rw [if_pos rfl, if_pos rfl]
      ring

/-- The per-chunk filtered row lists concatenate to a permutation of the
single filter over the whole hash list, provided no hash value occurs in
more than one chunk. -/
lemma perm_chunked_unchunked {β : Type} [DecidableEq β] (key : β → String) (rows : List β)
    (hashes : List (String × Int)) (bs : Nat) (hbs : 1 ≤ bs)
    (hdisj : ∀ h ∈ hashes.map Prod.fst,
      (chunksOf bs hashes).countP (fun c => decide (h ∈ c.map Prod.fst)) ≤ 1) :
    ((chunksOf bs hashes).flatMap
        (fun c => rows.filter (fun x => decide (key x ∈ c.map Prod.fst)))).Perm
      (rows.filter (fun x => decide (key x ∈ hashes.map Prod.fst))) := by
  rw [List.perm_iff_count]
  intro r
  rw [count_flatMap_filter key, count_filter_eq r (fun x => decide (key x ∈ hashes.map Prod.fst))]
  by_cases hr : key r ∈ hashes.map Prod.fst
  · have hone : (chunksOf bs hashes).countP (fun c => decide (key r ∈ c.map Prod.fst)) = 1 := by
      refine le_antisymm (hdisj (key r) hr) ?_
      obtain ⟨hp, hhp, hfst⟩ := List.mem_map.1 hr
      obtain ⟨c, hc, hxc⟩ := exists_chunk_of_mem hbs hhp
      have : key r ∈ c.map Prod.fst := List.mem_map.2 ⟨hp, hxc, hfst⟩
      exact List.countP_pos_iff.2 ⟨c, hc, by simpa using this⟩
    rw [hone, one_mul, if_pos (by simpa using hr)]
  · have hzero : (chunksOf bs hashes).countP (fun c => decide (key r ∈ c.map Prod.fst)) = 0 := by
      rw [List.countP_eq_zero]
      intro c hc hmem
      rw [decide_eq_true_eq] at hmem
      obtain ⟨hp, hxc, hfst⟩ := List.mem_map.1 hmem
      exact hr (List.mem_map.2 ⟨hp, mem_of_mem_chunksOf hbs hc hxc, hfst⟩)
    rw [hzero, zero_mul, if_neg (by simpa using hr)]

/-- C2 (amended): the chunked lookup is multiset-equivalent to the single
unchunked query whenever no hash value occurs in more than one chunk (in
particular whenever the query hashes are pairwise distinct); in general a
row is returned once per chunk containing its hash, so a hash value
straddling chunks duplicates its matches. -/
theorem claim_C2_amended (st : Store) (hashes : List (String × Int)) (bs : Nat)
    (hbs : 1 ≤ bs)
    (hdisj : ∀ h ∈ hashes.map Prod.fst,
      (chunksOf bs hashes).countP (fun c => decide (h ∈ c.map Prod.fst)) ≤ 1) :
    (find_matches_batch st hashes bs).Perm (dbSelectPairs st (hashes.map Prod.fst)) := by
  unfold find_matches_batch dbSelectPairs
  rw [← List.map_flatMap]
  exact (perm_chunked_unchunked (fun x => x.1) st.fps hashes bs hbs hdisj).map
    (fun r => (r.2.1, r.2.2))

/-- C2 witness: a two-hash query with distinct hash values and chunk
size 1, against a store holding one matching row. -/
theorem claim_C2_amended_witness :
    (find_matches_batch ⟨2, [(1, "A")], [("ha", 1, 0)]⟩ [("ha", 0), ("hb", 0)] 1).Perm
      (dbSelectPairs ⟨2, [(1, "A")], [("ha", 1, 0)]⟩
        ([("ha", 0), ("hb", 0)].map Prod.fst)) :=
  claim_C2_amended ⟨2, [(1, "A")], [("ha", 1, 0)]⟩ [("ha", 0), ("hb", 0)] 1
    (by decide) (by decide)

/-- C2 counterexample: with the duplicate query hash `"h"` split across
two chunks (chunk size 1), the store row `("h", 1, 0)` is returned once
per chunk — the accumulated list `[(1, 0), (1, 0)]` is not a permutation
of the unchunked result `[(1, 0)]`, so chunking is observable. -/
theorem claim_C2_counterexample :
    ¬ (find_matches_batch ⟨2, [(1, "A")], [("h", 1, 0)]⟩ [("h", 0), ("h", 0)] 1).Perm
      (dbSelectPairs ⟨2, [(1, "A")], [("h", 1, 0)]⟩
        ([("h", 0), ("h", 0)].map Prod.fst)) :=
  fun hp => absurd hp.length_eq (by decide)

/-! ## Claim C6

Helper facts about the `Counter` model and `most_common`. -/

/-- Count held by an association list for a key: the first entry wins
(the keys are kept distinct by construction). -/
def keyCount : List (Nat × Nat) → Nat → Nat
  | [], _ => 0
  | p :: ps, s => if p.1 = s then p.2 else keyCount ps s

/-- Bumping a key increments exactly its stored count. -/
lemma keyCount_bump_self (acc : List (Nat × Nat)) (s : Nat) :
    keyCount (bump acc s) s = keyCount acc s + 1 := by
  induction acc with
  | nil => simp [bump, keyCount]
  | cons p ps ih =>
    by_cases h : p.1 = s
    · simp [bump, keyCount, h]
    · simp [bump, keyCount, h, ih]

/-- Bumping a key leaves every other count unchanged. -/
lemma keyCount_bump_ne (acc : List (Nat × Nat)) (s t : Nat) (hne : s ≠ t) :
    keyCount (bump acc s) t = keyCount acc t := by
  induction acc with
  | nil => simp [bump, keyCount, hne]
  | cons p ps ih =>
    by_cases h : p.1 = s
    · simp [bump, keyCount, h, hne]
    · simp only [bump, if_neg h]
      by_cases h2 : p.1 = t
      · simp [keyCount, h2]
      · simp [keyCount, h2, ih]

/-- The keys after a bump: unchanged if the key was present, appended
otherwise. -/
lemma bump_keys (acc : List (Nat × Nat)) (s : Nat) :
    (bump acc s).map Prod.fst =
      if s ∈ acc.map Prod.fst then acc.map Prod.fst else acc.map Prod.fst ++ [s] := by
  induction acc with
  | nil => simp [bump]
  | cons p ps ih =>
    by_cases h : p.1 = s
    · simp [bump, h]
    · simp only [bump, if_neg h, List.map_cons, ih]
      by_cases h2 : s ∈ ps.map Prod.fst
      · rw [if_pos h2, if_pos (by simp [h2])]
      · have hns : s ∉ p.1 :: ps.map Prod.fst := by
          intro hc
          rcases List.mem_cons.1 hc with he | hs
          · exact h he.symm
          · exact h2 hs
        rw [if_neg h2, if_neg hns, List.cons_append]

/-- Bumping preserves distinctness of the stored keys. -/
lemma bump_nodup (acc : List (Nat × Nat)) (s : Nat)
    (hnd : (acc.map Prod.fst).Nodup) : ((bump acc s).map Prod.fst).Nodup := by
  rw [bump_keys]
  by_cases h : s ∈ acc.map Prod.fst
  · rwa [if_pos h]
  · rw [if_neg h]
    refine List.Nodup.append hnd (List.nodup_singleton s) ?_
    intro x hx hxs
    rw [List.mem_singleton] at hxs
    subst hxs
    exact h hx

/-- The counter fold keeps counts for all keys: the running tally plus
the occurrences in the remaining input. -/
lemma keyCount_foldl (l : List Nat) :
    ∀ (acc : List (Nat × Nat)) (s : Nat),
      keyCount (l.foldl bump acc) s = keyCount acc s + l.count s := by
  induction l with
  | nil => intro acc s; simp
  | cons x xs ih =>
    intro acc s
    rw [List.foldl_cons, ih]
    by_cases h : x = s
    · subst h
      rw [keyCount_bump_self, List.count_cons_self]
      ring
    · rw [keyCount_bump_ne acc x s h, List.count_cons_of_ne (fun he => h he.symm)]

/-- The counter's keys are the values seen in the input. -/
lemma counter_keys_mem (l : List Nat) :
    ∀ (acc : List (Nat × Nat)) (s : Nat),
      (s ∈ (l.foldl bump acc).map Prod.fst ↔ s ∈ acc.map Prod.fst ∨ s ∈ l) := by
  induction l with
  | nil => intro acc s; simp
  | cons x xs ih =>
    intro acc s
    rw [List.foldl_cons, ih, bump_keys]
    by_cases h : x ∈ acc.map Prod.fst
    · rw [if_pos h]
      constructor
      · rintro (hs | hs)
        · exact Or.inl hs
        · exact Or.inr (List.mem_cons_of_mem x hs)
      · rintro (hs | hs)
        · exact Or.inl hs
        · rcases List.mem_cons.1 hs with rfl | hs
          · exact Or.inl h
          · exact Or.inr hs
    · rw [if_neg h]
      simp only [List.mem_append, List.mem_singleton, List.mem_cons]
      tauto

/-- The counter's keys are distinct. -/
lemma counter_nodup (l : List Nat) :
    ∀ acc : List (Nat × Nat), (acc.map Prod.fst).Nodup →
      ((l.foldl bump acc).map Prod.fst).Nodup := by
  induction l with
  | nil => intro acc h; simpa
  | cons x xs ih =>
    intro acc h
    exact ih (bump acc x) (bump_nodup acc x h)

/-- With distinct keys, membership of an entry pins its count to the
association list's count for its key. -/
lemma keyCount_of_mem (acc : List (Nat × Nat)) (p : Nat × Nat)
    (hmem : p ∈ acc) (hnd : (acc.map Prod.fst).Nodup) : keyCount acc p.1 = p.2 := by
  induction acc with
  | nil => cases hmem
  | cons q qs ih =>
    rcases List.mem_cons.1 hmem with rfl | hmem'
    · simp [keyCount]
    · have h1 : q.1 ≠ p.1 := by
        intro he
        have : q.1 ∈ qs.map Prod.fst := he ▸ List.mem_map.2 ⟨p, hmem', rfl⟩
        exact (List.nodup_cons.1 (by simpa using hnd)).1 this
      simp only [keyCount, if_neg h1]
      exact ih hmem' (List.nodup_cons.1 (by simpa using hnd)).2

/-- Entries of the counter hold exactly the number of occurrences of
their key in the input (one increment per processed element). -/
lemma counter_entry_count (l : List Nat) (p : Nat × Nat) (hp : p ∈ counter l) :
    p.2 = l.count p.1 := by
  have hnd : ((counter l).map Prod.fst).Nodup := counter_nodup l [] (by simp)
  have h1 : keyCount (counter l) p.1 = p.2 := keyCount_of_mem _ p hp hnd
  have h2 : keyCount (counter l) p.1 = keyCount [] p.1 + l.count p.1 := keyCount_foldl l [] p.1
  simp only [keyCount] at h2
  omega

/-- The counter's keys are exactly the distinct values of the input. -/
lemma counter_keys (l : List Nat) (s : Nat) : s ∈ (counter l).map Prod.fst ↔ s ∈ l := by
  have := counter_keys_mem l [] s
  simpa using this

/-- The descending-count comparison used by `most_common` is total. -/
instance cntOrdTotal : IsTotal (Nat × Nat) (fun a b => b.2 ≤ a.2) :=
  ⟨fun a b => le_total b.2 a.2⟩

/-- The descending-count comparison used by `most_common` is transitive. -/
instance cntOrdTrans : IsTrans (Nat × Nat) (fun a b => b.2 ≤ a.2) :=
  ⟨fun _ _ _ h1 h2 => le_trans h2 h1⟩

/-- Inserting an entry of count `c` into the descending order places it
in front of the later entries of equal count. -/
lemma filter_orderedInsert_pos (x : Nat × Nat) (l : List (Nat × Nat)) (c : Nat)
    (hx : x.2 = c) :
    (List.orderedInsert (fun a b => b.2 ≤ a.2) x l).filter (fun p => decide (p.2 = c)) =
      x :: l.filter (fun p => decide (p.2 = c)) := by
  induction l with
  | nil => simp [List.orderedInsert, hx]
  | cons y ys ih =>
    rw [List.orderedInsert]
    by_cases h : y.2 ≤ x.2
    · rw [if_pos h, List.filter_cons, if_pos (by simpa using hx)]
    · have hy : ¬ y.2 = c := by omega
      rw [if_neg h, List.filter_cons, if_neg (by simpa using hy), List.filter_cons,
        if_neg (by simpa using hy), ih]

/-- Inserting an entry of a different count leaves the entries of count
`c` untouched. -/
lemma filter_orderedInsert_neg (x : Nat × Nat) (l : List (Nat × Nat)) (c : Nat)
    (hx : ¬ x.2 = c) :
    (List.orderedInsert (fun a b => b.2 ≤ a.2) x l).filter (fun p => decide (p.2 = c)) =
      l.filter (fun p => decide (p.2 = c)) := by
  induction l with
  | nil => simp [List.orderedInsert, hx]
  | cons y ys ih =>
    rw [List.orderedInsert]
    by_cases h : y.2 ≤ x.2
    · rw [if_pos h, List.filter_cons, if_neg (by simpa using hx)]
    · rw [if_neg h, List.filter_cons, List.filter_cons, ih]

/-- Stability of the `most_common` order: entries of any given count
appear in the sorted output in their tally (first-appearance) order. -/
lemma filter_insertionSort (l : List (Nat × Nat)) (c : Nat) :
    (List.insertionSort (fun a b => b.2 ≤ a.2) l).filter (fun p => decide (p.2 = c)) =
      l.filter (fun p => decide (p.2 = c)) := by
  induction l with
  | nil => rfl
  | cons x xs ih =>
    rw [List.insertionSort]
    by_cases hx : x.2 = c
    · rw [filter_orderedInsert_pos x _ c hx, ih, List.filter_cons, if_pos (by simpa using hx)]
    · rw [filter_orderedInsert_neg x _ c hx, ih, List.filter_cons, if_neg (by simpa using hx)]

/-- C6 (amended): the matcher counts one increment per returned index
entry per recording; `most_common` is the stable descending sort by
count truncated to `n`, so ties are broken by first appearance in the
accumulated match list (Python dict insertion order), not by
recording_id ascending; `N` defaults to 5 on the interactive path and 3
in comparison mode; each returned entry carries the stored name of a
ranked recording id. -/
theorem claim_C6_amended (ms : List Nat) (n : Nat) (st : Store)
    (hashes : List (String × Int)) :
    (∀ p ∈ counter ms, p.2 = ms.count p.1) ∧
    ((counter ms).map Prod.fst).Nodup ∧
    (∀ s, s ∈ (counter ms).map Prod.fst ↔ s ∈ ms) ∧
    mostCommon n (counter ms) =
      (List.insertionSort (fun a b => b.2 ≤ a.2) (counter ms)).take n ∧
    (mostCommon n (counter ms)).Pairwise (fun a b => b.2 ≤ a.2) ∧
    (∀ c, (List.insertionSort (fun a b => b.2 ≤ a.2) (counter ms)).filter
        (fun p => decide (p.2 = c)) = (counter ms).filter (fun p => decide (p.2 = c))) ∧
    best_matches st hashes = best_matches st hashes 5 ∧
    bestMatchesRS st hashes = bestMatchesRS st hashes 3 ∧
    (∀ nm c, (nm, c) ∈ best_matches st hashes n →
      ∃ sid, songLookup st sid = some nm ∧
        (sid, c) ∈ mostCommon n (counter ((find_matches_batch st hashes 1000).map Prod.fst))) := by
  refine ⟨counter_entry_count ms, counter_nodup ms [] (by simp), counter_keys ms, rfl,
    ?_, filter_insertionSort (counter ms), rfl, rfl, ?_⟩
  · exact List.Pairwise.sublist (List.take_sublist n _)
      (List.sorted_insertionSort (fun (a b : Nat × Nat) => b.2 ≤ a.2) (counter ms))
  · intro nm c hmem
    have hcases : best_matches st hashes n = [] ∨
        best_matches st hashes n = resolveNames st
          (mostCommon n (counter ((find_matches_batch st hashes 1000).map Prod.fst))) := by
      unfold best_matches
      split_ifs
      · exact Or.inl rfl
      · exact Or.inl rfl
      · exact Or.inr rfl
    rcases hcases with he | he
    · rw [he] at hmem
      cases hmem
    · rw [he] at hmem
      unfold resolveNames at hmem
      obtain ⟨p, hp, hval⟩ := List.mem_filterMap.1 hmem
      obtain ⟨nm', hlk, hinj⟩ := Option.map_eq_some'.1 hval
      cases hinj
      exact ⟨p.1, hlk, hp⟩

/-- C6 counterexample: two recordings tie at one match each; the query
hash order `["hb", "ha"]` makes recording 2 appear first in the match
list, so the comparison-mode matcher returns recording 2 (name "B")
before recording 1 (name "A") — the tie is not broken by recording_id
ascending. -/
theorem claim_C6_counterexample :
    bestMatchesRS ⟨3, [(1, "A"), (2, "B")], [("ha", 1, 0), ("hb", 2, 0)]⟩
        [("hb", 0), ("ha", 0)] = [("B", 1), ("A", 1)] ∧
    ([("B", 1), ("A", 1)] : List (String × Nat)) ≠ [("A", 1), ("B", 1)] := by
  constructor
  · decide
  · decide

/-- C6 witness: the per-entry counting conjunct instantiated at the
concrete match list `[7, 7, 3]`. -/
theorem claim_C6_amended_witness :
    ((7, 2) : Nat × Nat).2 = List.count ((7, 2) : Nat × Nat).1 [7, 7, 3] :=
  (claim_C6_amended [7, 7, 3] 2 ⟨1, [], []⟩ []).1 (7, 2) (by decide)

/-! ## Claim C8 -/

/-- A flat map over uniformly empty results is empty. -/
lemma flatMap_eq_nil_of {α β : Type} (l : List α) (f : α → List β)
    (h : ∀ a ∈ l, f a = []) : l.flatMap f = [] := by
  induction l with
  | nil => rfl
  | cons x xs ih =>
    rw [List.flatMap_cons, h x (List.mem_cons_self x xs), List.nil_append]
    exact ih (fun a ha => h a (List.mem_cons_of_mem x ha))

/-- When no stored hash occurs among the query hashes, every chunk query
returns no rows. -/
lemma dbSelectPairs_empty_of_disjoint (st : Store) (hashes : List (String × Int))
    (h : ∀ r ∈ st.fps, r.1 ∉ hashes.map Prod.fst) (c : List (String × Int))
    (hc : c ∈ chunksOf 1000 hashes) : dbSelectPairs st (c.map Prod.fst) = [] := by
  unfold dbSelectPairs
  rw [List.filter_eq_nil_iff.2, List.map_nil]
  intro r hr
  simp only [decide_eq_true_eq]
  intro hmem
  obtain ⟨hp, hhp, hfst⟩ := List.mem_map.1 hmem
  exact h r hr (List.mem_map.2 ⟨hp, mem_of_mem_chunksOf (by norm_num) hc hhp, hfst⟩)

/-- The query loop with cancellation never requested runs every chunk
and accumulates all per-chunk results. -/
lemma queryLoop_no_cancel (st : Store) :
    ∀ (chunks : List (List (String × Int))) (k : Nat) (acc : List (Nat × Int)),
      queryLoop st (fun _ => false) k acc chunks =
        (false, acc ++ chunks.flatMap (fun c => dbSelectPairs st (c.map Prod.fst))) := by
  intro chunks
  induction chunks with
  | nil => intro k acc; simp [queryLoop]
  | cons c cs ih =>
    intro k acc
    show queryLoop st (fun _ => false) (k + 1) (acc ++ dbSelectPairs st (c.map Prod.fst)) cs = _
    rw [ih, List.flatMap_cons, List.append_assoc]

/-- C8: a query whose lookup yields no index entry — in particular one
with zero fingerprints — produces the empty ranked list on the
`best_matches` path and the `(None, [])` result on the worker path, as a
normal outcome. -/
theorem claim_C8 (st : Store) (hashes : List (String × Int)) (n : Nat)
    (h : ∀ r ∈ st.fps, r.1 ∉ hashes.map Prod.fst) :
    best_matches st hashes n = [] ∧
    runQuery st hashes (fun _ => false) = (QResult.answer none [], st) := by
  have hflat : (chunksOf 1000 hashes).flatMap (fun c => dbSelectPairs st (c.map Prod.fst)) = [] :=
    flatMap_eq_nil_of _ _ (dbSelectPairs_empty_of_disjoint st hashes h)
  have hfmb : find_matches_batch st hashes 1000 = [] := hflat
  constructor
  · unfold best_matches
    split_ifs with h1 h2
    · rfl
    · rfl
    · rw [hfmb] at h2
      exact absurd rfl h2
  · unfold runQuery
    rw [queryLoop_no_cancel, hflat]
    rfl

/-- C8 witness: a store with one fingerprint row, queried with a hash it
does not contain. -/
theorem claim_C8_witness :
    best_matches ⟨8, [], [("h", 7, 0)]⟩ [("x", 0)] 5 = [] ∧
    runQuery ⟨8, [], [("h", 7, 0)]⟩ [("x", 0)] (fun _ => false) =
      (QResult.answer none [], ⟨8, [], [("h", 7, 0)]⟩) :=
  claim_C8 ⟨8, [], [("h", 7, 0)]⟩ [("x", 0)] 5 (by decide)

/-! ## Claim C9 -/

/-- The query loop on no chunks completes normally. -/
lemma queryLoop_nil (st : Store) (cancel : Nat → Bool) (k : Nat)
    (acc : List (Nat × Int)) : queryLoop st cancel k acc [] = (false, acc) := rfl

/-- One step of the query loop: the flag is consulted before the chunk
is queried. -/
lemma queryLoop_cons (st : Store) (cancel : Nat → Bool) (k : Nat)
    (acc : List (Nat × Int)) (c : List (String × Int)) (cs : List (List (String × Int))) :
    queryLoop st cancel k acc (c :: cs) =
      if cancel k then (true, acc)
      else queryLoop st cancel (k + 1) (acc ++ dbSelectPairs st (c.map Prod.fst)) cs := rfl

/-- With the flag set from check index `r` on, and `r` within the chunk
count, the loop runs the first `r` chunks to completion and exits as
cancelled at the `r`-th boundary, returning exactly their accumulated
results. -/
lemma queryLoop_cancelFrom (st : Store) (r : Nat) :
    ∀ (chunks : List (List (String × Int))) (k : Nat) (acc : List (Nat × Int)),
      k ≤ r → r - k < chunks.length →
      queryLoop st (cancelFrom r) k acc chunks =
        (true, acc ++ ((chunks.take (r - k)).flatMap
          (fun c => dbSelectPairs st (c.map Prod.fst)))) := by
  intro chunks
  induction chunks with
  | nil =>
    intro k acc _ hlen
    simp at hlen
  | cons c cs ih =>
    intro k acc hk hlen
    rw [queryLoop_cons]
    by_cases hkr : r ≤ k
    · have hrk : r - k = 0 := by omega
      rw [if_pos (by simp [cancelFrom]; omega), hrk]
      simp
    · have hrk : ∃ m, r - k = m + 1 := ⟨r - k - 1, by omega⟩
      obtain ⟨m, hm⟩ := hrk
      rw [if_neg (by simp [cancelFrom]; omega), ih (k + 1) _ (by omega) (by
        simp only [List.length_cons] at hlen
        omega), hm, List.take_succ_cons, List.flatMap_cons, List.append_assoc]
      have : r - (k + 1) = m := by omega
      rw [this]

/-- C9: requesting cancellation before a remaining chunk boundary makes
the worker emit `Cancelled`; the flag is observed only at chunk
boundaries, the chunks before the observation having been queried in
full and no chunk partially; and the query leaves the store unchanged
under every cancellation schedule (the run only issues SELECTs). -/
theorem claim_C9 (st : Store) (hashes : List (String × Int)) (r : Nat)
    (hr : r < (chunksOf 1000 hashes).length) :
    runQuery st hashes (cancelFrom r) = (QResult.cancelled, st) ∧
    queryLoop st (cancelFrom r) 0 [] (chunksOf 1000 hashes) =
      (true, ((chunksOf 1000 hashes).take r).flatMap
        (fun c => dbSelectPairs st (c.map Prod.fst))) ∧
    (∀ cancel, (runQuery st hashes cancel).2 = st) := by
  have hql := queryLoop_cancelFrom st r (chunksOf 1000 hashes) 0 []
    (Nat.zero_le r) (by omega)
  refine ⟨?_, ?_, ?_⟩
  · unfold runQuery
    rw [hql]
  · rw [hql]
    simp
  · intro cancel
    unfold runQuery
    rcases hq : queryLoop st cancel 0 [] (chunksOf 1000 hashes) with ⟨b, ms⟩
    cases b
    · dsimp only
      split_ifs
      · rfl
      · rcases hres : resolveNames st (mostCommon 5 (counter (ms.map Prod.fst))) with
          _ | ⟨b', rest⟩
        · rfl
        · rfl
    · rfl

/-- C9 witness: cancelling before the first chunk boundary of a one-chunk
query yields the cancelled result with the store intact. -/
theorem claim_C9_witness :
    runQuery ⟨8, [], [("h", 7, 0)]⟩ [("h", 0)] (cancelFrom 0) =
      (QResult.cancelled, ⟨8, [], [("h", 7, 0)]⟩) :=
  (claim_C9 ⟨8, [], [("h", 7, 0)]⟩ [("h", 0)] 0 (by decide)).1

/-! ## Claim C10 -/

/-- A `filterMap` dropping at least one element is strictly shorter than
its input. -/
lemma length_filterMap_lt {α β : Type} (l : List α) (f : α → Option β)
    (h : ∃ p ∈ l, f p = none) : (l.filterMap f).length < l.length := by
  induction l with
  | nil =>
    obtain ⟨p, hp, _⟩ := h
    cases hp
  | cons x xs ih =>
    rw [List.filterMap_cons]
    cases hfx : f x with
    | none =>
      calc (xs.filterMap f).length ≤ xs.length := List.length_filterMap_le f xs
      _ < (x :: xs).length := by simp
    | some b =>
      obtain ⟨p, hp, hpf⟩ := h
      rcases List.mem_cons.1 hp with rfl | hp'
      · rw [hfx] at hpf
        cases hpf
      · simpa using Nat.succ_lt_succ (ih ⟨p, hp', hpf⟩)

/-- C10: when a top-ranked recording id has no row in the songs table,
`best_matches` still returns the resolved list — silently omitting that
candidate — so the ranked list is strictly shorter than the ranked count
list, with no error raised. -/
theorem claim_C10 (st : Store) (hashes : List (String × Int)) (n s : Nat)
    (hm : find_matches_batch st hashes 1000 ≠ [])
    (hs : s ∈ (mostCommon n (counter
      ((find_matches_batch st hashes 1000).map Prod.fst))).map Prod.fst)
    (hnone : songLookup st s = none) :
    best_matches st hashes n = resolveNames st (mostCommon n (counter
      ((find_matches_batch st hashes 1000).map Prod.fst))) ∧
    (best_matches st hashes n).length < (mostCommon n (counter
      ((find_matches_batch st hashes 1000).map Prod.fst))).length := by
  have hhne : ¬ hashes.isEmpty = true := by
    intro he
    rw [List.isEmpty_iff] at he
    subst he
    exact hm rfl
  have heq : best_matches st hashes n = resolveNames st (mostCommon n (counter
      ((find_matches_batch st hashes 1000).map Prod.fst))) := by
    unfold best_matches
    rw [if_neg hhne, if_neg (by simpa [List.isEmpty_iff] using hm)]
  refine ⟨heq, ?_⟩
  rw [heq]
  unfold resolveNames
  apply length_filterMap_lt
  obtain ⟨p, hp, hfst⟩ := List.mem_map.1 hs
  refine ⟨p, hp, ?_⟩
  rw [hfst, hnone]
  rfl

/-- C10 witness: the store holds a fingerprint row for recording 7 but
no songs row; the lookup matches, recording 7 ranks, and the returned
ranked list is shorter than the count ranking (in fact empty). -/
theorem claim_C10_witness :
    (best_matches ⟨8, [], [("h", 7, 0)]⟩ [("h", 0)] 5).length <
      (mostCommon 5 (counter
        ((find_matches_batch ⟨8, [], [("h", 7, 0)]⟩ [("h", 0)] 1000).map Prod.fst))).length :=
  (claim_C10 ⟨8, [], [("h", 7, 0)]⟩ [("h", 0)] 5 7 (by decide) (by decide) (by decide)).2

/-! ## Claim C1 -/

/-- The CLI batch loop's final store is the fold ingesting exactly the
decodable files. -/
lemma mainMenuBatch_store (st : Store) (files : List AudioFile) :
    (mainMenuBatch st files).1 = ingestAll st files := by
  unfold mainMenuBatch ingestAll
  suffices h : ∀ (acc : Store × List String),
      (files.foldl (fun acc f =>
        match f.2 with
        | .ok hs => ((ingestOne acc.1 f.1 hs, acc.2) : Store × List String)
        | .error e => (acc.1, acc.2 ++ ["Error processing " ++ f.1 ++ ": " ++ e])) acc).1 =
      files.foldl (fun s f =>
        match f.2 with
        | .ok hs => ingestOne s f.1 hs
        | .error _ => s) acc.1 by
    exact h (st, [])
  induction files with
  | nil => intro acc; rfl
  | cons f fs ih =>
    intro acc
    rcases f with ⟨name, res⟩
    cases res with
    | ok hs => exact ih (ingestOne acc.1 name hs, acc.2)
    | error e => exact ih (acc.1, acc.2 ++ ["Error processing " ++ name ++ ": " ++ e])

/-- Ingesting one decoded file appends exactly one songs row. -/
lemma ingestOne_songs_length (st : Store) (name : String) (hs : List (String × Int)) :
    (ingestOne st name hs).songs.length = st.songs.length + 1 := by
  unfold ingestOne insert_song insert_fingerprints
  simp

/-- The fold over a folder ingests one recording per decodable file. -/
lemma ingestAll_songs_length (files : List AudioFile) :
    ∀ st : Store, (ingestAll st files).songs.length =
      st.songs.length + files.countP decodeOk := by
  induction files with
  | nil => intro st; simp [ingestAll]
  | cons f fs ih =>
    intro st
    rcases f with ⟨name, res⟩
    cases res with
    | ok hs =>
      show (ingestAll (ingestOne st name hs) fs).songs.length = _
      rw [ih, ingestOne_songs_length, List.countP_cons, if_pos (by simp [decodeOk])]
      ring
    | error e =>
      show (ingestAll st fs).songs.length = _
      rw [ih, List.countP_cons, if_neg (by simp [decodeOk])]
      ring

/-- The CLI batch loop reports exactly one failure per undecodable file. -/
lemma mainMenuBatch_errors_length (files : List AudioFile) :
    ∀ (acc : Store × List String),
      (files.foldl (fun acc f =>
        match f.2 with
        | .ok hs => ((ingestOne acc.1 f.1 hs, acc.2) : Store × List String)
        | .error e => (acc.1, acc.2 ++ ["Error processing " ++ f.1 ++ ": " ++ e])) acc).2.length =
      acc.2.length + files.countP (fun f => ! decodeOk f) := by
  induction files with
  | nil => intro acc; simp
  | cons f fs ih =>
    intro acc
    rcases f with ⟨name, res⟩
    cases res with
    | ok hs =>
      rw [List.foldl_cons]
      show (fs.foldl _ (ingestOne acc.1 name hs, acc.2)).2.length = _
      rw [ih, List.countP_cons, if_neg (by simp [decodeOk])]
      ring
    | error e =>
      rw [List.foldl_cons]
      show (fs.foldl _ (acc.1, acc.2 ++ ["Error processing " ++ name ++ ": " ++ e])).2.length = _
      rw [ih, List.countP_cons, if_pos (by simp [decodeOk]), List.length_append]
      simp
      ring

/-- With every earlier file decodable, the GUI batch loop ingests them
and stops dead at the first failing file, reporting its single error. -/
lemma batchWorkerLoop_abort (total : Nat) :
    ∀ (pre : List AudioFile) (st : Store) (name e : String) (post : List AudioFile),
      (∀ f ∈ pre, decodeOk f) →
      batchWorkerLoop st total (pre ++ (name, Except.error e) :: post) =
        (ingestAll st pre, "Error: " ++ e) := by
  intro pre
  induction pre with
  | nil =>
    intro st name e post _
    rfl
  | cons f fs ih =>
    intro st name e post hpre
    rcases f with ⟨nm, res⟩
    cases res with
    | ok hs =>
      show batchWorkerLoop (ingestOne st nm hs) total (fs ++ (name, Except.error e) :: post) = _
      rw [ih (ingestOne st nm hs) name e post
        (fun f hf => hpre f (List.mem_cons_of_mem _ hf))]
      rfl
    | error e' =>
      have := hpre (nm, Except.error e') (List.mem_cons_self _ _)
      simp [decodeOk] at this

/-- C1 (amended): the CLI batch (`main_menu`) catches failures per file
and continues — the final store ingests exactly the decodable files, one
recording each, with exactly one reported failure per undecodable file —
while the GUI `BatchWorker.run` aborts at the first failing file: the
files before it are ingested, a single `"Error: ..."` message is emitted,
and the remaining files are left unprocessed. -/
theorem claim_C1_amended (st : Store) (files : List AudioFile) :
    ((mainMenuBatch st files).1 = ingestAll st files ∧
      (mainMenuBatch st files).1.songs.length =
        st.songs.length + files.countP decodeOk ∧
      (mainMenuBatch st files).2.length = files.countP (fun f => ! decodeOk f)) ∧
    (∀ (pre post : List AudioFile) (name e : String), (∀ f ∈ pre, decodeOk f) →
      batchWorkerRun st (pre ++ (name, Except.error e) :: post) =
        (ingestAll st pre, "Error: " ++ e)) := by
  refine ⟨⟨mainMenuBatch_store st files, ?_, ?_⟩, ?_⟩
  · rw [mainMenuBatch_store st files, ingestAll_songs_length files st]
  · have := mainMenuBatch_errors_length files (st, [])
    simpa [mainMenuBatch] using this
  · intro pre post name e hpre
    unfold batchWorkerRun
    rw [if_neg (by cases pre <;> simp)]
    exact batchWorkerLoop_abort _ pre st name e post hpre

/-- C1 counterexample: a folder whose first file is corrupt and whose
second is valid.  The claim predicts one ingested recording and one
per-file failure report with processing continuing; `BatchWorker.run`
instead stops at the corrupt file, ingests nothing, and emits a single
error signal. -/
theorem claim_C1_counterexample :
    batchWorkerRun ⟨1, [], []⟩
        [("bad", Except.error "decode failure"), ("good", Except.ok [("h", 0)])] =
      (⟨1, [], []⟩, "Error: decode failure") ∧
    (batchWorkerRun ⟨1, [], []⟩
        [("bad", Except.error "decode failure"), ("good", Except.ok [("h", 0)])]).1.songs.length
      = 0 := by
  constructor
  · rfl
  · rfl

/-- C1 witness: one valid file followed by one corrupt file; the GUI
batch ingests the valid prefix and aborts with the corrupt file's
error. -/
theorem claim_C1_amended_witness :
    batchWorkerRun ⟨1, [], []⟩
        [("good", Except.ok [("h", 0)]), ("bad", Except.error "boom")] =
      (ingestAll ⟨1, [], []⟩ [("good", Except.ok [("h", 0)])], "Error: " ++ "boom") :=
  (claim_C1_amended ⟨1, [], []⟩
    [("good", Except.ok [("h", 0)]), ("bad", Except.error "boom")]).2
    [("good", Except.ok [("h", 0)])] [] "bad" "boom" (by decide)
